import Mathlib

/-!
Shallow embedding of the `rust-brown-book` repository examples that the
specification talks about, together with proofs of the spec's claims.

Rust strings are modelled as `List Char`; fallible or panicking Rust code is
modelled with `Option`/`Except` (`none`/`.error` marks the panic or error).
Machine integers (`i32`) are modelled as `Int` together with an explicit
range check where the code can overflow (the chapter-8 median's `+`), and
the `i32 as f32` casts of the chapter-8 median are modelled exactly: the
cast of an `i32` always yields an integral `f32` value, computed by
rounding to 24 significant bits, round-to-nearest, ties-to-even.  The final
division by `2.0` is exact in `f32` for every such value, so the median is
carried in `ℚ` with no further rounding.
-/

namespace RustBook

/-! ### Rust `str` primitives (std semantics used by the repository) -/

/-- Model of Rust `str::contains` with a string pattern: naive substring
scan, `true` iff `needle` occurs contiguously inside `hay`. -/
def isSubstringOf (needle : List Char) : List Char → Bool
  | [] => needle.isEmpty
  | c :: t => needle.isPrefixOf (c :: t) || isSubstringOf needle t

/-- Strip a single trailing carriage return, as Rust `str::lines` does for
lines terminated by `"\r\n"`. -/
def stripTrailingCR (l : List Char) : List Char :=
  if l.getLast? = some '\r' then l.dropLast else l

/-- Worker for `rustLines`: `acc` holds the current (unterminated) line in
reverse.  A line ended by `'\n'` has a single trailing `'\r'` stripped; a
final unterminated line is returned as-is; an empty final segment after the
last `'\n'` (or an empty input) produces no line. -/
def rustLinesAux (acc : List Char) : List Char → List (List Char)
  | [] => if acc.isEmpty then [] else [acc.reverse]
  | c :: cs =>
    if c = '\n' then stripTrailingCR acc.reverse :: rustLinesAux [] cs
    else rustLinesAux (c :: acc) cs

/-- Model of Rust `str::lines`: split at `'\n'` or `"\r\n"`, the final line
ending being optional. -/
def rustLines (s : List Char) : List (List Char) :=
  rustLinesAux [] s

/-- Model of Rust `str::to_lowercase`, per-character lowercase mapping. -/
def toLowercase (s : List Char) : List Char :=
  s.map Char.toLower

/-! ### chapter-12 `minigrep` (`src/lib.rs`, `src/main.rs`) -/

/-- `minigrep::Config` (chapter-12 `lib.rs`). -/
structure Config where
  query : List Char
  file_path : List Char
  ignore_case : Bool

/-- The process environment, mapping a variable name to its value when set. -/
def EnvMap : Type := List Char → Option (List Char)

/-- The file system, mapping a path to the file's text when readable. -/
def FileSys : Type := List Char → Option (List Char)

/-- The literal variable name `"IGNORE_CASE"`. -/
def ignoreCaseVar : List Char :=
  ['I', 'G', 'N', 'O', 'R', 'E', '_', 'C', 'A', 'S', 'E']

/-- `Config::build` (chapter-12 `lib.rs`).  The argument iterator is modelled
as the list of remaining arguments: `args.next()` is taken from the head.
The first argument (the binary name) is skipped; `env::var("IGNORE_CASE").is_ok()`
is modelled as the variable being set in the environment map. -/
def Config.build (args : List (List Char)) (env : EnvMap) : Except String Config :=
  match args.tail with
  | [] => .error "Didn't get a query string"
  | query :: rest =>
    match rest with
    | [] => .error "Didn't get a file path"
    | file_path :: _ =>
      .ok { query := query, file_path := file_path,
            ignore_case := (env ignoreCaseVar).isSome }

/-- `minigrep::search` (chapter-12 `lib.rs`): loop over the lines of
`contents`, pushing each line that contains `query` onto the result vector. -/
def search (query contents : List Char) : List (List Char) :=
  (rustLines contents).foldl
    (fun results line => if isSubstringOf query line then results ++ [line] else results)
    []

/-- `minigrep::search_v2` (chapter-12 `lib.rs`): the iterator-adapter rewrite
of `search` using `filter` and `collect`. -/
def search_v2 (query contents : List Char) : List (List Char) :=
  (rustLines contents).filter (fun line => isSubstringOf query line)

/-- `minigrep::search_case_insensitive` (chapter-12 `lib.rs`): lowercase the
query once, then push every line whose lowercase form contains it; the
original line is pushed. -/
def search_case_insensitive (query contents : List Char) : List (List Char) :=
  let query' := toLowercase query
  (rustLines contents).foldl
    (fun results line =>
      if isSubstringOf query' (toLowercase line) then results ++ [line] else results)
    []

/-- `minigrep::run` (chapter-12 `lib.rs`).  `fs::read_to_string` is modelled
by the file-system map; its failure is propagated with `?`.  The lines the
program prints are returned as the success value. -/
def run (config : Config) (fsys : FileSys) : Except String (List (List Char)) :=
  match fsys config.file_path with
  | none => .error "could not read file"
  | some contents =>
    .ok (if config.ignore_case then
           search_case_insensitive config.query contents
         else
           search config.query contents)

/-- The exit status of `main` (chapter-12 `main.rs`): `process::exit(1)` when
`Config::build` errors, `process::exit(1)` when `run` errors, and a normal
exit 0 otherwise.  (As checked in, `main.rs` passes `&args` where
`Config::build` demands `impl Iterator<Item = String>`, so the binary target
does not type-check; this definition embeds the control flow `main` spells
out.) -/
def mainExit (args : List (List Char)) (env : EnvMap) (fsys : FileSys) : Nat :=
  match Config.build args env with
  | .error _ => 1
  | .ok config =>
    match run config fsys with
    | .error _ => 1
    | .ok _ => 0

/-! ### Generic lemmas about the loop shapes used above -/

/-- A `for` loop pushing the elements satisfying `p` onto an accumulator
vector is `filter`. -/
theorem foldl_push_filter {α : Type} (p : α → Bool) (l : List α) (acc : List α) :
    l.foldl (fun results x => if p x then results ++ [x] else results) acc
      = acc ++ l.filter p := by
  induction l generalizing acc with
  | nil => simp
  | cons a t ih =>
    by_cases h : p a <;> simp [List.filter_cons, h, ih]

/-- The naive substring scan decides `List.IsInfix`. -/
theorem isSubstringOf_eq_decide_infix (needle hay : List Char) :
    isSubstringOf needle hay = decide (needle <:+: hay) := by
  induction hay with
  | nil =>
    cases needle <;> simp [isSubstringOf]
  | cons a t ih =>
    simp only [isSubstringOf, ih]
    by_cases hpre : needle <+: a :: t
    · have hb : needle.isPrefixOf (a :: t) = true := by
        rw [ List.isPrefixOf_iff_prefix]
        exact hpre
      simp [hb, List.infix_cons_iff, hpre]
    · have hb : needle.isPrefixOf (a :: t) = false := by
        rw [Bool.eq_false_iff]
        intro hcontra
        rw [ List.isPrefixOf_iff_prefix] at hcontra
        exact hpre hcontra
      simp [hb, List.infix_cons_iff, hpre]

/-! ### Claim theorems for the `minigrep` searches -/

/-- C1: for every query string and contents string, `search query contents`
returns exactly those lines of `contents` (as produced by splitting
`contents` into lines) that contain `query` as a substring, in the order the
lines appear in `contents`; lines not containing `query` are omitted. -/
theorem search_returns_exactly_matching_lines (query contents : List Char) :
    search query contents
      = (rustLines contents).filter (fun line => decide (query <:+: line)) := by
  unfold search
  rw [foldl_push_filter]
  rw [List.nil_append]
  exact List.filter_congr (fun line _ => isSubstringOf_eq_decide_infix query line)

/-- C9: the loop-based `search` and the iterator-adapter `search_v2` return
the same vector of lines on every query and contents. -/
theorem search_eq_search_v2 (query contents : List Char) :
    search query contents = search_v2 query contents := by
  unfold search search_v2
  rw [foldl_push_filter, List.nil_append]

/-- C2: `search_case_insensitive` returns exactly the lines whose lowercase
form contains the lowercase form of the query, in input order and in their
original form; `run` performs the case-insensitive search exactly when
`Config.ignore_case` is true; and `Config::build` sets `ignore_case` to
whether the `IGNORE_CASE` environment variable is set at all, regardless of
its value. -/
theorem search_case_insensitive_spec :
    (∀ query contents : List Char,
      search_case_insensitive query contents
        = (rustLines contents).filter
            (fun line => decide (toLowercase query <:+: toLowercase line)))
    ∧ (∀ (cfg : Config) (fsys : FileSys) (text : List Char),
        fsys cfg.file_path = some text →
          run cfg fsys
            = .ok (if cfg.ignore_case then
                     search_case_insensitive cfg.query text
                   else
                     search cfg.query text))
    ∧ (∀ (args : List (List Char)) (env : EnvMap) (cfg : Config),
        Config.build args env = .ok cfg →
          cfg.ignore_case = (env ignoreCaseVar).isSome) := by
  refine ⟨fun query contents => ?_, fun cfg fsys text h => ?_, fun args env cfg h => ?_⟩
  · unfold search_case_insensitive
    rw [foldl_push_filter, List.nil_append]
    exact List.filter_congr
      (fun line _ => isSubstringOf_eq_decide_infix (toLowercase query) (toLowercase line))
  · unfold run
    rw [h]
  · unfold Config.build at h
    rcases args with _ | ⟨a₀, rest⟩
    · simp at h
    rcases rest with _ | ⟨a₁, rest'⟩
    · simp at h
    rcases rest' with _ | ⟨a₂, rest''⟩
    · simp at h
    · simp only [List.tail_cons] at h
      cases h
      rfl

/-- Witness for C2 at concrete inputs: a file system holding one file and an
empty environment. -/
theorem search_case_insensitive_spec_witness :
    (run { query := ['b'], file_path := ['f'], ignore_case := true }
        (fun p => if p = ['f'] then some ['a', 'B', 'c'] else none)
      = .ok (if true then
               search_case_insensitive ['b'] ['a', 'B', 'c']
             else
               search ['b'] ['a', 'B', 'c']))
    ∧ ((⟨['q'], ['f'], false⟩ : Config).ignore_case
        = ((fun _ => none : EnvMap) ignoreCaseVar).isSome) :=
  ⟨search_case_insensitive_spec.2.1
      { query := ['b'], file_path := ['f'], ignore_case := true }
      (fun p => if p = ['f'] then some ['a', 'B', 'c'] else none)
      ['a', 'B', 'c'] (by decide),
   search_case_insensitive_spec.2.2 [['m'], ['q'], ['f']] (fun _ => none)
      ⟨['q'], ['f'], false⟩ rfl⟩

/-- C3: `Config::build` skips the first argument, errors with
`"Didn't get a query string"` when no second argument exists, errors with
`"Didn't get a file path"` when no third argument exists, and otherwise
succeeds with `query` and `file_path` bound to those two arguments; `main`
exits with status 1 exactly when `Config::build` returns an error or `run`
returns an error. -/
theorem config_build_and_main_exit_spec :
    (∀ (args : List (List Char)) (env : EnvMap),
      args.length < 2 → Config.build args env = .error "Didn't get a query string")
    ∧ (∀ (args : List (List Char)) (env : EnvMap),
        args.length = 2 → Config.build args env = .error "Didn't get a file path")
    ∧ (∀ (args : List (List Char)) (env : EnvMap),
        2 < args.length →
          Config.build args env
            = .ok { query := args.getD 1 [], file_path := args.getD 2 [],
                    ignore_case := (env ignoreCaseVar).isSome })
    ∧ (∀ (args : List (List Char)) (env : EnvMap) (fsys : FileSys),
        mainExit args env fsys = 1 ↔
          (∃ e, Config.build args env = .error e)
          ∨ (∃ cfg e, Config.build args env = .ok cfg ∧ run cfg fsys = .error e)) := by
  refine ⟨fun args env h => ?_, fun args env h => ?_, fun args env h => ?_,
          fun args env fsys => ?_⟩
  · rcases args with _ | ⟨a₀, _ | ⟨a₁, rest⟩⟩
    · rfl
    · rfl
    · simp at h
      omega
  · rcases args with _ | ⟨a₀, _ | ⟨a₁, _ | ⟨a₂, rest⟩⟩⟩ <;> simp_all [Config.build]
  · rcases args with _ | ⟨a₀, _ | ⟨a₁, _ | ⟨a₂, rest⟩⟩⟩ <;> simp_all [Config.build]
  · unfold mainExit
    rcases hb : Config.build args env with e | cfg
    · simp [hb]
    · rcases hr : run cfg fsys with e | res
      · simp [hb, hr]
      · simp [hb, hr]

/-- Witness for C3 at concrete argument lists: too few arguments, exactly
two, and three, plus the exit status on a missing file. -/
theorem config_build_and_main_exit_spec_witness :
    (Config.build [['m']] (fun _ => none) = .error "Didn't get a query string")
    ∧ (Config.build [['m'], ['q']] (fun _ => none) = .error "Didn't get a file path")
    ∧ (Config.build [['m'], ['q'], ['f']] (fun _ => none)
        = .ok { query := [['m'], ['q'], ['f']].getD 1 [],
                file_path := [['m'], ['q'], ['f']].getD 2 [],
                ignore_case := ((fun _ => none : EnvMap) ignoreCaseVar).isSome })
    ∧ (mainExit [['m'], ['q'], ['f']] (fun _ => none) (fun _ => none) = 1 ↔
        (∃ e, Config.build [['m'], ['q'], ['f']] (fun _ => none) = .error e)
        ∨ (∃ cfg e, Config.build [['m'], ['q'], ['f']] (fun _ => none) = .ok cfg
            ∧ run cfg (fun _ => none) = .error e)) :=
  ⟨config_build_and_main_exit_spec.1 [['m']] (fun _ => none) (by decide),
   config_build_and_main_exit_spec.2.1 [['m'], ['q']] (fun _ => none) (by decide),
   config_build_and_main_exit_spec.2.2.1 [['m'], ['q'], ['f']] (fun _ => none) (by decide),
   config_build_and_main_exit_spec.2.2.2 [['m'], ['q'], ['f']] (fun _ => none) (fun _ => none)⟩

/-! ### chapter-8 challenges (`src/challenges.rs`) -/

/-- One `frequency_dict.entry(num).or_insert(0); *count += 1` step: increment
the stored count of `k`, inserting `(k, 1)` on first sight.  The `HashMap` is
modelled as an association list in first-occurrence order (iteration order of
a Rust `HashMap` is arbitrary; every claim proved below is independent of the
order). -/
def bumpCount (m : List (Int × Int)) (k : Int) : List (Int × Int) :=
  match m with
  | [] => [(k, 1)]
  | (k', v) :: rest => if k' = k then (k', v + 1) :: rest else (k', v) :: bumpCount rest k

/-- The frequency dictionary built by `calculate_mode`'s first loop. -/
def buildFreq (vec : List Int) : List (Int × Int) :=
  vec.foldl bumpCount []

/-- `calculate_mode` (chapter-8 `challenges.rs`): scan the frequency
dictionary keeping the first strictly larger frequency, starting from
`mode = 0, max_frequency = 0`; return `None` when the final `max_frequency`
is `1` and `Some mode` otherwise. -/
def calculate_mode (vec : List Int) : Option Int :=
  let freq := buildFreq vec
  let best := freq.foldl (fun p e => if e.2 > p.2 then e else p) ((0 : Int), (0 : Int))
  if best.2 = 1 then none else some best.1

/-- The `i32` bounds. -/
def i32Min : Int := -2147483648

/-- The `i32` bounds. -/
def i32Max : Int := 2147483647

/-- Floor of the base-2 logarithm by structural recursion on a fuel bound,
so that proofs can evaluate it inside the kernel: halving reaches `1` within
`fuel` steps whenever `n ≤ 2 ^ fuel`. -/
def log2Fuel : Nat → Nat → Nat
  | 0, _ => 0
  | fuel + 1, n => if n ≤ 1 then 0 else log2Fuel fuel (n / 2) + 1

/-- `⌊log₂ n⌋` (and `0` at `n = 0`): `n` itself always suffices as fuel. -/
def floorLog2 (n : Nat) : Nat :=
  log2Fuel n n

/-- Round a natural number to 24 significant bits, round-to-nearest,
ties-to-even: the magnitude part of the value of an `i32 as f32` cast.
Below `2 ^ 24` every integer is exactly representable; above it, the unit in
the last place is `2 ^ (⌊log₂ n⌋ - 23)` and the significand `n / ulp` lies
in `[2 ^ 23, 2 ^ 24)`. -/
def roundF32Nat (n : Nat) : Nat :=
  if n ≤ 2 ^ 24 then n
  else
    let ulp := 2 ^ (floorLog2 n - 23)
    let q := n / ulp
    let r := n % ulp
    if 2 * r < ulp then q * ulp
    else if ulp < 2 * r then (q + 1) * ulp
    else if q % 2 = 0 then q * ulp else (q + 1) * ulp

/-- The exact value of `(n : i32) as f32` (Rust casts round to nearest, ties
to even; the result is always integral since the ulp is at least 1 on the
`i32` range, and `f32` rounding is symmetric in the sign). -/
def f32ofI32 (n : Int) : Int :=
  if 0 ≤ n then (roundF32Nat n.toNat : Int) else -(roundF32Nat (-n).toNat : Int)

/-- `calculate_median` (chapter-8 `challenges.rs`): sort, then take the
middle element (odd length) or the average of the two middle elements (even
length).  On the empty vector the even branch evaluates
`sorted_vec[middle_index - 1]` with `middle_index = 0`, a `usize` underflow /
out-of-bounds panic, modelled as `none`.  The even branch's `i32` addition
overflows outside `i32` bounds — a panic under the debug profile the crate's
tests run under (two's-complement wrap in release), modelled as `none`.  The
`as f32` casts round via `f32ofI32`; the final division of an integral `f32`
value by `2.0` is exact, so it is carried out in `ℚ`. -/
def calculate_median (vec : List Int) : Option ℚ :=
  let sorted_vec := List.insertionSort (· ≤ ·) vec
  let middle_index := sorted_vec.length / 2
  match sorted_vec.length % 2 with
  | 0 =>
    if sorted_vec.isEmpty then none
    else
      let sum := sorted_vec.getD middle_index 0 + sorted_vec.getD (middle_index - 1) 0
      if sum < i32Min ∨ i32Max < sum then none
      else some ((f32ofI32 sum : ℚ) / 2)
  | 1 => some ((f32ofI32 (sorted_vec.getD middle_index 0) : ℚ))
  | _ => some 0

/-- The result struct of challenge 1. -/
structure Challenge1Result where
  median : ℚ
  mode : Option Int

/-- `challenge_1` (chapter-8 `challenges.rs`): the median and mode of the
list; `none` when `calculate_median` panics. -/
def challenge_1 (vec : List Int) : Option Challenge1Result :=
  match calculate_median vec with
  | none => none
  | some m => some { median := m, mode := calculate_mode vec }

/-- Rust `char::is_whitespace`: the Unicode `White_Space` property. -/
def isRustWhitespace (c : Char) : Bool :=
  c.val = 0x09 || c.val = 0x0A || c.val = 0x0B || c.val = 0x0C || c.val = 0x0D
    || c.val = 0x20 || c.val = 0x85 || c.val = 0xA0 || c.val = 0x1680
    || (0x2000 ≤ c.val && c.val ≤ 0x200A)
    || c.val = 0x2028 || c.val = 0x2029 || c.val = 0x202F || c.val = 0x205F
    || c.val = 0x3000

/-- Worker for `splitWhitespace`: `cur` holds the current word in reverse. -/
def splitWhitespaceAux (cur : List Char) : List Char → List (List Char)
  | [] => if cur.isEmpty then [] else [cur.reverse]
  | c :: cs =>
    if isRustWhitespace c then
      if cur.isEmpty then splitWhitespaceAux [] cs
      else cur.reverse :: splitWhitespaceAux [] cs
    else splitWhitespaceAux (c :: cur) cs

/-- Model of Rust `str::split_whitespace`: the maximal nonempty runs of
non-whitespace characters. -/
def splitWhitespace (s : List Char) : List (List Char) :=
  splitWhitespaceAux [] s

/-- The per-word body of `challenge_2`'s loop: `chars.next().unwrap()` panics
on an empty word (modelled as `none`; `split_whitespace` never produces one);
a word starting with a lowercase vowel gets `"-hay"` appended, any other word
is rotated to `rest-firstay`. -/
def pigLatinWord (word : List Char) : Option (List Char) :=
  match word with
  | [] => none
  | first_char :: rest =>
    some (if first_char = 'a' ∨ first_char = 'e' ∨ first_char = 'i'
            ∨ first_char = 'o' ∨ first_char = 'u' then
            word ++ ['-', 'h', 'a', 'y']
          else
            rest ++ ['-', first_char, 'a', 'y'])

/-- `challenge_2` (chapter-8 `challenges.rs`): transform every
whitespace-separated word and join the results with `" "`. -/
def challenge_2 (words : List Char) : Option (List Char) :=
  ((splitWhitespace words).mapM pigLatinWord).map (List.intercalate [' '])

/-! ### chapter-11 `Guess` (`src/lib.rs`) -/

/-- `Guess` (chapter-11 `lib.rs`). -/
structure Guess where
  value : Int

/-- `Guess::new` (chapter-11 `lib.rs`): panics (modelled as `none`) when the
value is below 1 or above 100, and otherwise stores the value. -/
def Guess.new (value : Int) : Option Guess :=
  if value < 1 ∨ value > 100 then none
  else some { value := value }

/-! ### chapter-13 closures scenario (`src/lib.rs`) -/

/-- `ShirtColor` (chapter-13 `lib.rs`). -/
inductive ShirtColor where
  | red
  | blue
deriving DecidableEq, Repr

/-- `Inventory` (chapter-13 `lib.rs`). -/
structure Inventory where
  shirts : List ShirtColor

/-- `Inventory::most_stocked` (chapter-13 `lib.rs`): count red and blue
shirts in one pass, then return red exactly when strictly more red shirts
are in stock. -/
def Inventory.most_stocked (inv : Inventory) : ShirtColor :=
  let counts := inv.shirts.foldl
    (fun (p : Nat × Nat) color =>
      match color with
      | .red => (p.1 + 1, p.2)
      | .blue => (p.1, p.2 + 1))
    (0, 0)
  if counts.1 > counts.2 then .red else .blue

/-- `Inventory::giveaway` (chapter-13 `lib.rs`):
`user_preference.unwrap_or_else(|| self.most_stocked())`. -/
def Inventory.giveaway (inv : Inventory) (user_preference : Option ShirtColor) : ShirtColor :=
  user_preference.getD inv.most_stocked

/-! ### Claim theorems for chapter 8, 11 and 13 -/

/-- C4 counterexample: `challenge_1` applied to the empty list does NOT
return a result: `calculate_median` evaluates `sorted_vec[middle_index - 1]`
with `middle_index = 0` on a `usize`, an out-of-bounds / underflow panic,
modelled as `none`. -/
theorem challenge_1_empty_panics : challenge_1 [] = none := rfl

/-- C4 amended: `challenge_2` applied to the empty string returns the empty
string without panicking, but `challenge_1` applied to the empty list panics
inside `calculate_median` and returns no result. -/
theorem challenge_empty_input_behavior :
    challenge_2 [] = some [] ∧ challenge_1 [] = none :=
  ⟨rfl, rfl⟩

/-- C5 counterexample: at `[16777216, 16777217]` (second element `2^24 + 1`)
the program computes `(16777216 + 16777217) as f32 / 2.0`: the sum
`2^25 + 1` rounds to `2^25` in `f32`, so the median field is `16777216.0`,
not the claimed exact arithmetic mean `16777216.5`. -/
theorem calculate_median_rounding_counterexample :
    (challenge_1 [16777216, 16777217]).map Challenge1Result.median = some 16777216
    ∧ ((16777216 + 16777217 : Int) : ℚ) / 2 ≠ 16777216 := by
  constructor
  · have hf : f32ofI32 33554433 = 33554432 := by decide
    have hsorted : List.insertionSort (· ≤ ·) ([16777216, 16777217] : List Int)
        = [16777216, 16777217] := by
      simp [List.insertionSort, List.orderedInsert]
    simp only [challenge_1, calculate_median, hsorted]
    norm_num [i32Min, i32Max, hf]
  · norm_num

/-- C5 amended: for every non-empty list of i32, the median field of
`challenge_1`'s result is the `f32` rounding of the middle element of the
sorted list when the length is odd, and, when the length is even and the sum
of the two middle elements stays within `i32` bounds (otherwise the addition
overflows and the debug-profile program panics), the `f32` rounding of that
sum divided by 2 — the division by `2.0` being exact in `f32`.  For
magnitudes up to `2^24` the rounding is the identity and the originally
claimed exact values are recovered.  `sorted` ranges over every sorted
permutation of the input, which pins down the list `calculate_median`
actually sorts. -/
theorem challenge_1_median_spec (vec sorted : List Int) (hne : vec ≠ [])
    (hperm : vec.Perm sorted) (hsorted : sorted.Sorted (· ≤ ·))
    (hnoflow : vec.length % 2 = 0 →
      i32Min ≤ sorted.getD (vec.length / 2) 0 + sorted.getD (vec.length / 2 - 1) 0
      ∧ sorted.getD (vec.length / 2) 0 + sorted.getD (vec.length / 2 - 1) 0 ≤ i32Max) :
    (challenge_1 vec).map Challenge1Result.median
      = some (if vec.length % 2 = 1 then
                ((f32ofI32 (sorted.getD (vec.length / 2) 0) : Int) : ℚ)
              else
                ((f32ofI32 (sorted.getD (vec.length / 2) 0
                    + sorted.getD (vec.length / 2 - 1) 0) : Int) : ℚ) / 2) := by
  have hsort_eq : List.insertionSort (· ≤ ·) vec = sorted :=
    List.eq_of_perm_of_sorted ((List.perm_insertionSort _ vec).trans hperm)
      (List.sorted_insertionSort _ vec) hsorted
  have hlen : sorted.length = vec.length := hperm.length_eq.symm
  have hnil : sorted.isEmpty = false := by
    have : sorted ≠ [] := by
      intro hs
      exact hne (List.eq_nil_of_length_eq_zero (by rw [← hlen, hs]; rfl))
    simpa [List.isEmpty_iff]
  rcases Nat.mod_two_eq_zero_or_one vec.length with h2 | h2
  · obtain ⟨hlo, hhi⟩ := hnoflow h2
    have hguard : ¬(sorted.getD (vec.length / 2) 0 + sorted.getD (vec.length / 2 - 1) 0 < i32Min
        ∨ i32Max < sorted.getD (vec.length / 2) 0 + sorted.getD (vec.length / 2 - 1) 0) := by
      push_neg
      exact ⟨hlo, hhi⟩
    simp only [challenge_1, calculate_median, hsort_eq, hlen, h2, hnil,
      Bool.false_eq_true, if_false, if_neg hguard]
    simp
  · simp only [challenge_1, calculate_median, hsort_eq, hlen, h2]
    simp

/-- Witness for C5 at the even-length list `[2, 1]` (sorted: `[1, 2]`): the
two-middle sum `3` is inside `i32` bounds, `f32` represents it exactly, and
the median is `3 / 2`. -/
theorem challenge_1_median_spec_witness :
    (challenge_1 [2, 1]).map Challenge1Result.median
      = some (if ([2, 1] : List Int).length % 2 = 1 then
                ((f32ofI32 (([1, 2] : List Int).getD (([2, 1] : List Int).length / 2) 0) : Int) : ℚ)
              else
                ((f32ofI32 (([1, 2] : List Int).getD (([2, 1] : List Int).length / 2) 0
                    + ([1, 2] : List Int).getD (([2, 1] : List Int).length / 2 - 1) 0) : Int) : ℚ) / 2) :=
  challenge_1_median_spec [2, 1] [1, 2] (by decide) (by decide) (by decide) (by decide)

/-- C7: `Guess::new` panics exactly when the value is outside `1..=100`;
inside the range it returns a `Guess` storing exactly the argument; and any
successfully constructed `Guess` holds a value inside `1..=100`. -/
theorem guess_new_spec (value : Int) :
    (Guess.new value = none ↔ value < 1 ∨ value > 100)
    ∧ (1 ≤ value → value ≤ 100 → Guess.new value = some { value := value })
    ∧ (∀ g, Guess.new value = some g → 1 ≤ g.value ∧ g.value ≤ 100) := by
  refine ⟨?_, ?_, ?_⟩
  · by_cases h : value < 1 ∨ value > 100 <;> simp [Guess.new, h]
  · intro h1 h2
    have h : ¬(value < 1 ∨ value > 100) := by omega
    simp [Guess.new, h]
  · intro g hg
    by_cases h : value < 1 ∨ value > 100
    · simp [Guess.new, h] at hg
    · simp [Guess.new, h] at hg
      cases hg
      push_neg at h
      exact ⟨h.1, h.2⟩

/-- Witness for C7: `Guess::new 200` panics, `Guess::new 50` stores `50`,
and the stored value is inside the range. -/
theorem guess_new_spec_witness :
    Guess.new 200 = none
    ∧ Guess.new 50 = some { value := 50 }
    ∧ (1 ≤ (Guess.mk 50).value ∧ (Guess.mk 50).value ≤ 100) :=
  ⟨(guess_new_spec 200).1.mpr (Or.inr (by decide)),
   (guess_new_spec 50).2.1 (by decide) (by decide),
   (guess_new_spec 50).2.2 (Guess.mk 50)
     ((guess_new_spec 50).2.1 (by decide) (by decide))⟩

/-- The red/blue counting loop of `most_stocked` computes the two counts. -/
theorem shirt_count_foldl (l : List ShirtColor) (a b : Nat) :
    l.foldl
      (fun (p : Nat × Nat) color =>
        match color with
        | .red => (p.1 + 1, p.2)
        | .blue => (p.1, p.2 + 1))
      (a, b)
      = (a + l.count .red, b + l.count .blue) := by
  induction l generalizing a b with
  | nil => simp
  | cons c t ih =>
    cases c <;> simp [List.foldl_cons, ih, List.count_cons] <;> omega

/-- C10: `giveaway` returns the preferred color unchanged whenever the
preference is `Some`, regardless of the inventory; with no preference it
returns red exactly when strictly more red than blue shirts are in stock,
and blue otherwise (equal counts and the empty inventory included). -/
theorem inventory_giveaway_spec (inv : Inventory) :
    (∀ color, inv.giveaway (some color) = color)
    ∧ (inv.giveaway none
        = if inv.shirts.count .red > inv.shirts.count .blue then .red else .blue) := by
  constructor
  · intro color
    rfl
  · show inv.most_stocked = _
    unfold Inventory.most_stocked
    rw [shirt_count_foldl]
    simp

/-- Whitespace splitting never produces an empty word. -/
theorem splitWhitespaceAux_ne_nil (s : List Char) :
    ∀ cur, [] ∉ splitWhitespaceAux cur s := by
  induction s with
  | nil =>
    intro cur
    by_cases h : cur.isEmpty <;> simp_all [splitWhitespaceAux, List.isEmpty_iff]
  | cons c cs ih =>
    intro cur
    by_cases hws : isRustWhitespace c
    · by_cases hcur : cur.isEmpty <;>
        simp_all [splitWhitespaceAux, List.isEmpty_iff]
    · simp only [splitWhitespaceAux, hws, Bool.false_eq_true, if_false]
      exact ih (c :: cur)

/-- The per-word transformation exactly as claim C8 words it: a word whose
first character is one of the lowercase vowels becomes the word followed by
`"-hay"`; every other word becomes the rest of the word after its first
character, followed by `"-"`, the first character, and `"ay"`.  The `[]`
case is irrelevant: whitespace splitting yields only nonempty words. -/
def pigLatinWordClaim (word : List Char) : List Char :=
  match word with
  | [] => []
  | first_char :: rest =>
    if first_char = 'a' ∨ first_char = 'e' ∨ first_char = 'i'
        ∨ first_char = 'o' ∨ first_char = 'u' then
      word ++ ['-', 'h', 'a', 'y']
    else
      rest ++ ['-', first_char, 'a', 'y']

/-- On a nonempty word the loop body succeeds and agrees with the claim's
transformation. -/
theorem pigLatinWord_eq_claim (word : List Char) (h : word ≠ []) :
    pigLatinWord word = some (pigLatinWordClaim word) := by
  cases word with
  | nil => exact absurd rfl h
  | cons c rest => rfl

/-- `mapM` over a list of nonempty words succeeds and maps the claim's
transformation. -/
theorem mapM_pigLatinWord (l : List (List Char)) (h : ∀ w ∈ l, w ≠ []) :
    l.mapM pigLatinWord = some (l.map pigLatinWordClaim) := by
  induction l with
  | nil => rfl
  | cons w t ih =>
    rw [List.mapM_cons, pigLatinWord_eq_claim w (h w (by simp)),
        ih (fun x hx => h x (by simp [hx]))]
    rfl

/-- C8: `challenge_2` transforms each whitespace-separated word
independently — vowel-initial words get `"-hay"`, all others are rotated to
`rest-firstay` — and joins the transformed words with single spaces. -/
theorem challenge_2_spec (words : List Char) :
    challenge_2 words
      = some (List.intercalate [' '] ((splitWhitespace words).map pigLatinWordClaim)) := by
  unfold challenge_2
  rw [mapM_pigLatinWord _ (fun w hw => by
    intro hnil
    subst hnil
    exact splitWhitespaceAux_ne_nil words [] hw)]
  rfl

/-! ### Lemmas about the frequency dictionary of `calculate_mode` -/

/-- Association-list lookup, the model of `HashMap` access in
`calculate_mode`. -/
def lookupKey (k : Int) : List (Int × Int) → Option Int
  | [] => none
  | (k', v) :: rest => if k' = k then some v else lookupKey k rest

/-- Bumping `k` increments its stored count (first count is 1). -/
theorem lookupKey_bumpCount_self (m : List (Int × Int)) (k : Int) :
    lookupKey k (bumpCount m k) = some ((lookupKey k m).getD 0 + 1) := by
  induction m with
  | nil => simp [bumpCount, lookupKey]
  | cons e rest ih =>
    obtain ⟨k', v⟩ := e
    by_cases h : k' = k
    · subst h
      simp [bumpCount, lookupKey]
    · simp [bumpCount, lookupKey, h, ih]

/-- Bumping `k` leaves every other key's count unchanged. -/
theorem lookupKey_bumpCount_ne (m : List (Int × Int)) (k k' : Int) (h : k' ≠ k) :
    lookupKey k' (bumpCount m k) = lookupKey k' m := by
  induction m with
  | nil => simp [bumpCount, lookupKey, Ne.symm h]
  | cons e rest ih =>
    obtain ⟨k'', v⟩ := e
    by_cases h2 : k'' = k
    · subst h2
      simp [bumpCount, lookupKey, Ne.symm h]
    · by_cases h3 : k'' = k'
      · subst h3
        simp [bumpCount, lookupKey, h2]
      · simp [bumpCount, lookupKey, h2, h3, ih]

/-- Folding the counting loop over `vec` adds each element's multiplicity to
a key already present. -/
theorem foldl_bumpCount_lookupKey_some (vec : List Int) :
    ∀ (m : List (Int × Int)) (k v : Int), lookupKey k m = some v →
      lookupKey k (vec.foldl bumpCount m) = some (v + vec.count k) := by
  induction vec with
  | nil =>
    intro m k v h
    simpa using h
  | cons a t ih =>
    intro m k v h
    rw [List.foldl_cons]
    by_cases hak : a = k
    · subst hak
      have h1 : lookupKey a (bumpCount m a) = some (v + 1) := by
        rw [lookupKey_bumpCount_self, h]
        rfl
      rw [ih _ _ _ h1, List.count_cons_self]
      congr 1
      omega
    · have hka : k ≠ a := fun he => hak he.symm
      have h1 : lookupKey k (bumpCount m a) = some v := by
        rw [lookupKey_bumpCount_ne m a k hka]
        exact h
      rw [ih _ _ _ h1]
      have hc : (a :: t).count k = t.count k := by
        simp [List.count_cons, hka]
      rw [hc]

/-- Folding the counting loop over `vec` gives an absent key exactly its
multiplicity in `vec` (still absent when the multiplicity is zero). -/
theorem foldl_bumpCount_lookupKey_none (vec : List Int) :
    ∀ (m : List (Int × Int)) (k : Int), lookupKey k m = none →
      lookupKey k (vec.foldl bumpCount m)
        = if vec.count k = 0 then none else some (vec.count k) := by
  induction vec with
  | nil =>
    intro m k h
    simpa using h
  | cons a t ih =>
    intro m k h
    rw [List.foldl_cons]
    by_cases hak : a = k
    · subst hak
      have h1 : lookupKey a (bumpCount m a) = some (0 + 1) := by
        rw [lookupKey_bumpCount_self, h]
        rfl
      rw [foldl_bumpCount_lookupKey_some t _ _ _ h1, List.count_cons_self]
      rw [if_neg (by omega)]
      congr 1
      omega
    · have hka : k ≠ a := fun he => hak he.symm
      have h1 : lookupKey k (bumpCount m a) = none := by
        rw [lookupKey_bumpCount_ne m a k hka]
        exact h
      rw [ih _ _ h1]
      have hc : (a :: t).count k = t.count k := by
        simp [List.count_cons, hka]
      rw [hc]

/-- A successful lookup names an entry of the association list. -/
theorem lookupKey_mem (m : List (Int × Int)) (k v : Int)
    (h : lookupKey k m = some v) : (k, v) ∈ m := by
  induction m with
  | nil => simp [lookupKey] at h
  | cons e rest ih =>
    obtain ⟨k', v'⟩ := e
    by_cases hk : k' = k
    · subst hk
      simp [lookupKey] at h
      subst h
      exact List.mem_cons_self _ _
    · simp [lookupKey, hk] at h
      exact List.mem_cons_of_mem _ (ih h)

/-- The keys of the dictionary after a bump: unchanged for a present key, the
new key appended otherwise. -/
theorem keys_bumpCount (m : List (Int × Int)) (k : Int) :
    (bumpCount m k).map Prod.fst
      = if k ∈ m.map Prod.fst then m.map Prod.fst else m.map Prod.fst ++ [k] := by
  induction m with
  | nil => simp [bumpCount]
  | cons e rest ih =>
    obtain ⟨k', v⟩ := e
    by_cases h : k' = k
    · subst h
      simp [bumpCount]
    · have hne : ¬k = k' := fun he => h he.symm
      by_cases hmem : k ∈ rest.map Prod.fst
      · simp [bumpCount, h, ih, hmem, hne]
      · simp [bumpCount, h, ih, hmem, hne]

/-- Bumping preserves distinctness of the keys. -/
theorem nodup_keys_bumpCount (m : List (Int × Int)) (k : Int)
    (h : (m.map Prod.fst).Nodup) : ((bumpCount m k).map Prod.fst).Nodup := by
  rw [keys_bumpCount]
  by_cases hmem : k ∈ m.map Prod.fst
  · rwa [if_pos hmem]
  · rw [if_neg hmem]
    simp [List.nodup_append, h, hmem]

/-- The frequency dictionary has pairwise distinct keys. -/
theorem buildFreq_nodup_keys (vec : List Int) :
    ((buildFreq vec).map Prod.fst).Nodup := by
  have main : ∀ (v : List Int) (m : List (Int × Int)), (m.map Prod.fst).Nodup →
      ((v.foldl bumpCount m).map Prod.fst).Nodup := by
    intro v
    induction v with
    | nil => intro m hm; exact hm
    | cons a t ih =>
      intro m hm
      rw [List.foldl_cons]
      exact ih _ (nodup_keys_bumpCount m a hm)
  exact main vec [] (by simp)

/-- With distinct keys, membership of an entry determines its lookup. -/
theorem mem_entry_lookupKey (m : List (Int × Int)) (hnd : (m.map Prod.fst).Nodup)
    (k v : Int) (h : (k, v) ∈ m) : lookupKey k m = some v := by
  induction m with
  | nil => simp at h
  | cons e rest ih =>
    obtain ⟨k', v'⟩ := e
    simp only [List.map_cons, List.nodup_cons] at hnd
    rcases List.mem_cons.mp h with heq | hmem
    · injection heq with h1 h2
      subst h1
      subst h2
      simp [lookupKey]
    · have hk : ¬k' = k := by
        intro he
        subst he
        exact hnd.1 (List.mem_map.mpr ⟨(k', v), hmem, rfl⟩)
      simp only [lookupKey, if_neg hk]
      exact ih hnd.2 hmem

/-- Every entry of the frequency dictionary is an element of `vec` paired
with its multiplicity. -/
theorem buildFreq_entry (vec : List Int) (k v : Int) (h : (k, v) ∈ buildFreq vec) :
    k ∈ vec ∧ v = vec.count k := by
  have hl : lookupKey k (buildFreq vec) = some v :=
    mem_entry_lookupKey _ (buildFreq_nodup_keys vec) k v h
  have hn : lookupKey k (List.foldl bumpCount [] vec)
      = if vec.count k = 0 then none else some (vec.count k) :=
    foldl_bumpCount_lookupKey_none vec [] k rfl
  rw [show buildFreq vec = List.foldl bumpCount [] vec from rfl, hn] at hl
  by_cases hc : vec.count k = 0
  · rw [if_pos hc] at hl
    exact absurd hl (by simp)
  · rw [if_neg hc] at hl
    refine ⟨List.count_pos_iff.mp (by omega), ?_⟩
    injection hl with h'
    omega

/-- Conversely, every element of `vec` appears in the frequency dictionary
with its multiplicity. -/
theorem buildFreq_mem_entry (vec : List Int) (k : Int) (h : k ∈ vec) :
    (k, (vec.count k : Int)) ∈ buildFreq vec := by
  have hc : vec.count k ≠ 0 := by
    have := List.count_pos_iff.mpr h
    omega
  have hn : lookupKey k (List.foldl bumpCount [] vec)
      = if vec.count k = 0 then none else some (vec.count k) :=
    foldl_bumpCount_lookupKey_none vec [] k rfl
  rw [if_neg hc] at hn
  exact lookupKey_mem _ _ _ hn

/-! ### Lemmas about the arg-max scan of `calculate_mode` -/

/-- The scan's result is the start pair or one of the scanned entries. -/
theorem foldl_max_mem (l : List (Int × Int)) :
    ∀ p₀ : Int × Int,
      l.foldl (fun p e => if e.2 > p.2 then e else p) p₀ = p₀
      ∨ l.foldl (fun p e => if e.2 > p.2 then e else p) p₀ ∈ l := by
  induction l with
  | nil =>
    intro p₀
    exact Or.inl rfl
  | cons a t ih =>
    intro p₀
    rw [List.foldl_cons]
    rcases ih (if a.2 > p₀.2 then a else p₀) with h | h
    · rw [h]
      by_cases hc : a.2 > p₀.2
      · exact Or.inr (by rw [if_pos hc]; exact List.mem_cons_self _ _)
      · exact Or.inl (by rw [if_neg hc])
    · exact Or.inr (List.mem_cons_of_mem _ h)

/-- The scan's result bounds the start pair and every scanned frequency. -/
theorem foldl_max_ge (l : List (Int × Int)) :
    ∀ p₀ : Int × Int,
      p₀.2 ≤ (l.foldl (fun p e => if e.2 > p.2 then e else p) p₀).2
      ∧ ∀ e ∈ l, e.2 ≤ (l.foldl (fun p e => if e.2 > p.2 then e else p) p₀).2 := by
  induction l with
  | nil =>
    intro p₀
    exact ⟨le_refl _, by simp⟩
  | cons a t ih =>
    intro p₀
    rw [List.foldl_cons]
    obtain ⟨h1, h2⟩ := ih (if a.2 > p₀.2 then a else p₀)
    have hstep : p₀.2 ≤ (if a.2 > p₀.2 then a else p₀).2 := by
      by_cases hc : a.2 > p₀.2
      · simp [hc]
        omega
      · simp [hc]
    have hstepa : a.2 ≤ (if a.2 > p₀.2 then a else p₀).2 := by
      by_cases hc : a.2 > p₀.2
      · simp [hc]
      · simp [hc]
        omega
    refine ⟨le_trans hstep h1, ?_⟩
    intro e he
    rcases List.mem_cons.mp he with heq | hmem
    · subst heq
      exact le_trans hstepa h1
    · exact h2 e hmem

/-- C6 counterexample: on the empty list no element occurs more than once,
yet `calculate_mode` returns `Some 0` (its final `max_frequency` is `0`, not
`1`) — and `0` is not an element of the list. -/
theorem calculate_mode_empty_counterexample :
    calculate_mode [] = some 0 ∧ (0 : Int) ∉ ([] : List Int) :=
  ⟨rfl, by simp⟩

/-- C6 amended: for every NON-EMPTY list, the mode is `None` exactly when no
element occurs more than once, and otherwise is `Some x` with `x` an element
of the list of maximal multiplicity. -/
theorem calculate_mode_spec (vec : List Int) (hne : vec ≠ []) :
    (calculate_mode vec = none ↔ ∀ x ∈ vec, vec.count x ≤ 1)
    ∧ (∀ x, calculate_mode vec = some x →
        x ∈ vec ∧ ∀ y ∈ vec, vec.count y ≤ vec.count x) := by
  have hcm : calculate_mode vec
      = if ((buildFreq vec).foldl (fun p e => if e.2 > p.2 then e else p)
              ((0 : Int), (0 : Int))).2 = 1
        then none
        else some ((buildFreq vec).foldl (fun p e => if e.2 > p.2 then e else p)
              ((0 : Int), (0 : Int))).1 := rfl
  set best := (buildFreq vec).foldl (fun p e => if e.2 > p.2 then e else p)
    ((0 : Int), (0 : Int)) with hbest
  obtain ⟨k₀, hk₀⟩ : ∃ k, k ∈ vec := by
    rcases vec with _ | ⟨a, t⟩
    · exact absurd rfl hne
    · exact ⟨a, by simp⟩
  have hmem₀ : (k₀, (vec.count k₀ : Int)) ∈ buildFreq vec :=
    buildFreq_mem_entry vec k₀ hk₀
  have hge := foldl_max_ge (buildFreq vec) ((0 : Int), (0 : Int))
  have hcnt₀ : 1 ≤ vec.count k₀ := List.count_pos_iff.mpr hk₀
  have hb2 : (1 : Int) ≤ best.2 := by
    have := hge.2 _ hmem₀
    rw [← hbest] at this
    omega
  have hbmem : best ∈ buildFreq vec := by
    rcases foldl_max_mem (buildFreq vec) ((0 : Int), (0 : Int)) with h | h
    · rw [← hbest] at h
      rw [h] at hb2
      norm_num at hb2
    · rwa [← hbest] at h
  obtain ⟨hbin, hbval⟩ : best.1 ∈ vec ∧ best.2 = vec.count best.1 := by
    have := buildFreq_entry vec best.1 best.2 (by rwa [Prod.mk.eta])
    exact this
  have hmax : ∀ y ∈ vec, vec.count y ≤ vec.count best.1 := by
    intro y hy
    have h := hge.2 _ (buildFreq_mem_entry vec y hy)
    rw [← hbest, hbval] at h
    simp only at h
    exact_mod_cast h
  constructor
  · constructor
    · intro hnone x hx
      have h1 : best.2 = 1 := by
        by_contra hb
        rw [hcm, if_neg hb] at hnone
        exact absurd hnone (by simp)
      have hcb : vec.count best.1 = 1 := by
        rw [h1] at hbval
        omega
      have := hmax x hx
      omega
    · intro hall
      have hc1 : vec.count best.1 = 1 :=
        le_antisymm (hall _ hbin) (List.count_pos_iff.mpr hbin)
      rw [hcm, if_pos (by rw [hbval, hc1]; norm_num)]
  · intro x hx
    rw [hcm] at hx
    by_cases hb1 : best.2 = 1
    · rw [if_pos hb1] at hx
      exact absurd hx (by simp)
    · rw [if_neg hb1] at hx
      injection hx with hx'
      subst hx'
      exact ⟨hbin, hmax⟩

/-- Witness for C6 at `[1, 1, 2]`: the mode is `1`, an element of maximal
multiplicity (in particular at least that of `2`). -/
theorem calculate_mode_spec_witness :
    (1 : Int) ∈ ([1, 1, 2] : List Int)
    ∧ ([1, 1, 2] : List Int).count 2 ≤ ([1, 1, 2] : List Int).count 1 :=
  ⟨((calculate_mode_spec [1, 1, 2] (by decide)).2 1 (by decide)).1,
   ((calculate_mode_spec [1, 1, 2] (by decide)).2 1 (by decide)).2 2 (by decide)⟩

end RustBook
